import Mathlib

/-!
Verification of the rabit bootstrap tracker
(`python-package/xgboost/tracker.py`).

The development shallowly embeds the tracker's overlay builder
(`get_neighbor`, `get_tree`, `find_share_ring`, `get_ring`,
`get_link_map`), the per-worker rank packet (`WorkerEntry.assign_rank`),
the byte-exact receive loop (`ExSocket.recvall`) and the rendezvous
coordinator (`RabitTracker.accept_workers`) as executable Lean
functions, and proves the documented properties about them.

Modelling conventions:
* Python `dict`s keyed by `0 .. n-1` that are only read back at their
  keys are modelled as functions (or association lists when the keys are
  inserted in a permuted order, in which case `List.lookup` models the
  dict lookup).
* Python `set`s of small non-negative ints are iterated in ascending
  order, matching CPython's iteration order for the sets arising here
  (at most two consecutive ints, or the neighbour sets of one rank); the
  spec requires this iteration to be deterministic.
* The wire protocol is modelled by the list of 32-bit integers written
  on a socket, in order; fatal `assert`s become `Except.error`.
-/

namespace Tracker

/-! ## Overlay builder: tree -/

/-- `RabitTracker.get_neighbor`: neighbours of `rank` in the 1-indexed
binary heap over `[0, n_workers)`, in source order parent, left child,
right child.  In the source `rank` is first incremented (`rank = rank + 1`),
here `r1 = rank + 1`. -/
def get_neighbor (rank n_workers : Nat) : List Nat :=
  let r1 := rank + 1
  (if r1 > 1 then [r1 / 2 - 1] else []) ++
  (if r1 * 2 - 1 < n_workers then [r1 * 2 - 1] else []) ++
  (if r1 * 2 < n_workers then [r1 * 2] else [])

/-- `RabitTracker.get_tree`, tree component: `tree_map[r] = get_neighbor(r, n)`
for `r` in `range n`. -/
def tree_map (n r : Nat) : List Nat := get_neighbor r n

/-- `RabitTracker.get_tree`, parent component: `parent_map[r] = (r + 1) // 2 - 1`
(Python ints, so `parent_map[0] = -1`). -/
def parent_map (r : Nat) : Int := ((r : Int) + 1) / 2 - 1

/-- Heap parent on natural ranks (`(r + 1) // 2 - 1` with truncation at 0);
used to reason about the recursion of `find_share_ring`. -/
def heapPar (x : Nat) : Nat := (x + 1) / 2 - 1

/-- `r` is an ancestor-or-self of `x` in the binary heap. -/
def Anc (r x : Nat) : Prop := ∃ k, heapPar^[k] x = r

/-! ## Overlay builder: ring -/

/-- `RabitTracker.find_share_ring`, structural helper.  The source
recurses on `cset = set(tree_map[r]) - set([parent_map[r]])`, which for
the maps produced by `get_tree` (the only call site, via `get_ring`) is
the set of in-range heap children `{2r+1, 2r+2} ∩ [0, n)`, iterated in
ascending order.  The visit of the last child is reversed.  `fuel` is a
structural bound on the recursion depth; every call keeps
`n ≤ fuel + r`, which makes the result independent of `fuel`. -/
def fsr_aux (n : Nat) : Nat → Nat → List Nat
  | 0, r => [r]
  | fuel + 1, r =>
    if 2 * r + 1 < n then
      if 2 * r + 2 < n then
        r :: (fsr_aux n fuel (2 * r + 1) ++ (fsr_aux n fuel (2 * r + 2)).reverse)
      else
        r :: (fsr_aux n fuel (2 * r + 1)).reverse
    else [r]

/-- `RabitTracker.find_share_ring(tree_map, parent_map, r)` for the maps
built by `get_tree(n)`. -/
def find_share_ring (n r : Nat) : List Nat := fsr_aux n n r

/-- `rlst = self.find_share_ring(tree_map, parent_map, 0)` inside `get_ring`. -/
def rlst (n : Nat) : List Nat := find_share_ring n 0

/-- `RabitTracker.get_ring` as a function of the key:
`ring_map[rlst[r]] = (rlst[(r + n - 1) % n], rlst[(r + 1) % n])` for
`r in range(n)`; the key `k` is located by its (unique) index in `rlst`. -/
def ring_map (n k : Nat) : Nat × Nat :=
  let l := rlst n
  let r := l.indexOf k
  (l.getD ((r + n - 1) % n) 0, l.getD ((r + 1) % n) 0)

/-! ## Overlay builder: canonical relabelling (`get_link_map`) -/

/-- One iteration of the relabelling walk in `get_link_map`:
`k = ring_map[k][1]; rmap[k] = i + 1`.  The pair carries
(rmap as a function, current k). -/
def rmap_step (n : Nat) (p : (Nat → Nat) × Nat) (i : Nat) : (Nat → Nat) × Nat :=
  let k := (ring_map n p.2).2
  (Function.update p.1 k (i + 1), k)

/-- The dict `rmap` built by `get_link_map`: start from `{0: 0}` and walk
the ring `n - 1` steps.  The dict is modelled as a total function whose
unwritten keys default to `0`; every key the source reads back is proven
to have been written. -/
def rmap_fun (n : Nat) : Nat → Nat :=
  ((List.range (n - 1)).foldl (rmap_step n) (fun _ => 0, 0)).1

/-- The items of the relabelled `tree_map_` dict:
`tree_map_[rmap[k]] = [rmap[x] for x in tree_map[k]]` for `k in range(n)`. -/
def tree_items (n : Nat) : List (Nat × List Nat) :=
  (List.range n).map (fun k => (rmap_fun n k, (tree_map n k).map (rmap_fun n)))

/-- The items of the relabelled `parent_map_` dict:
`parent_map_[rmap[k]] = rmap[parent]` for `k ≠ 0`, and `-1` for `k = 0`. -/
def parent_items (n : Nat) : List (Nat × Int) :=
  (List.range n).map (fun k =>
    (rmap_fun n k,
      if k = 0 then (-1 : Int) else (rmap_fun n (parent_map k).toNat : Int)))

/-- The items of the relabelled `ring_map_` dict:
`ring_map_[rmap[k]] = (rmap[v[0]], rmap[v[1]])`. -/
def ring_items (n : Nat) : List (Nat × (Nat × Nat)) :=
  (List.range n).map (fun k =>
    (rmap_fun n k, (rmap_fun n (ring_map n k).1, rmap_fun n (ring_map n k).2)))

/-- Relabelled tree map returned by `get_link_map` (dict lookup). -/
def tree_map_c (n j : Nat) : List Nat := ((tree_items n).lookup j).getD []

/-- Relabelled parent map returned by `get_link_map` (dict lookup). -/
def parent_map_c (n j : Nat) : Int := ((parent_items n).lookup j).getD 0

/-- Relabelled ring map returned by `get_link_map` (dict lookup). -/
def ring_map_c (n j : Nat) : Nat × Nat := ((ring_items n).lookup j).getD (0, 0)

/-- `RabitTracker.get_link_map(n)`: the relabelled `(tree, parent, ring)` maps. -/
def get_link_map (n : Nat) : (Nat → List Nat) × (Nat → Int) × (Nat → Nat × Nat) :=
  (tree_map_c n, parent_map_c n, ring_map_c n)

/-! ## Heap-ancestor lemmas -/

theorem heapPar_le (x : Nat) : heapPar x ≤ x := by
  unfold heapPar; omega

theorem heapPar_lt (x : Nat) (hx : 1 ≤ x) : heapPar x < x := by
  unfold heapPar; omega

theorem heapPar_iter_le (k x : Nat) : heapPar^[k] x ≤ x := by
  induction k generalizing x with
  | zero => simp
  | succ k ih =>
    rw [Function.iterate_succ_apply]
    exact le_trans (ih (heapPar x)) (heapPar_le x)

theorem anc_le {r x : Nat} (h : Anc r x) : r ≤ x := by
  obtain ⟨k, hk⟩ := h
  simpa [hk] using heapPar_iter_le k x

theorem anc_refl (r : Nat) : Anc r r := ⟨0, rfl⟩

theorem anc_of_parent {r c x : Nat} (hc : heapPar c = r) (h : Anc c x) : Anc r x := by
  obtain ⟨k, hk⟩ := h
  exact ⟨k + 1, by rw [Function.iterate_succ_apply', hk, hc]⟩

theorem anc_zero (x : Nat) : Anc 0 x := by
  induction x using Nat.strong_induction_on with
  | _ x ih =>
    rcases Nat.eq_zero_or_pos x with h0 | h1
    · exact h0 ▸ anc_refl 0
    · obtain ⟨k, hk⟩ := ih (heapPar x) (heapPar_lt x h1)
      exact ⟨k + 1, by rw [Function.iterate_succ_apply, hk]⟩

theorem heapPar_child_left (r : Nat) : heapPar (2 * r + 1) = r := by
  unfold heapPar; omega

theorem heapPar_child_right (r : Nat) : heapPar (2 * r + 2) = r := by
  unfold heapPar; omega

/-- A non-trivial node whose heap parent is `r` is one of the two children. -/
theorem child_eq {r c : Nat} (hc : heapPar c = r) (hne : c ≠ r) :
    c = 2 * r + 1 ∨ c = 2 * r + 2 := by
  have h0 : c ≠ 0 := by
    intro h; rw [h] at hc; simp [heapPar] at hc; omega
  unfold heapPar at hc; omega

/-- Decompose a proper ancestor chain at the child of `r` it passes through. -/
theorem anc_decompose {r x : Nat} (h : Anc r x) (hne : x ≠ r) :
    ∃ c k, heapPar c = r ∧ c ≠ r ∧ heapPar^[k] x = c := by
  obtain ⟨k, hk⟩ := h
  induction k generalizing x with
  | zero => exact absurd hk hne
  | succ k ih =>
    rw [Function.iterate_succ_apply'] at hk
    by_cases hy : heapPar^[k] x = r
    · exact ih hne hy
    · exact ⟨heapPar^[k] x, k, hk, hy, rfl⟩

/-- Along an ancestor chain of length at least one, the value is at most
the immediate parent. -/
theorem iter_le_heapPar {k x : Nat} (hk : 1 ≤ k) : heapPar^[k] x ≤ heapPar x := by
  obtain ⟨k', rfl⟩ := Nat.exists_eq_add_of_le hk
  rw [Nat.add_comm, Function.iterate_add_apply, Function.iterate_one]
  exact heapPar_iter_le k' (heapPar x)

/-- Two ancestors of the same node are comparable (one is an ancestor of
the other). -/
theorem anc_total {c1 c2 x : Nat} (h1 : Anc c1 x) (h2 : Anc c2 x) :
    Anc c1 c2 ∨ Anc c2 c1 := by
  obtain ⟨j, hj⟩ := h1
  obtain ⟨k, hk⟩ := h2
  rcases le_total j k with h | h
  · right
    obtain ⟨d, rfl⟩ := Nat.exists_eq_add_of_le h
    exact ⟨d, by rw [Nat.add_comm, Function.iterate_add_apply, hj] at hk; exact hk⟩
  · left
    obtain ⟨d, rfl⟩ := Nat.exists_eq_add_of_le h
    exact ⟨d, by rw [Nat.add_comm, Function.iterate_add_apply, hk] at hj; exact hj⟩

/-- The subtrees of the two children of `r` are disjoint. -/
theorem anc_children_disjoint {r x : Nat}
    (h1 : Anc (2 * r + 1) x) (h2 : Anc (2 * r + 2) x) : False := by
  rcases anc_total h1 h2 with h | h
  · obtain ⟨k, hk⟩ := h
    rcases Nat.eq_zero_or_pos k with rfl | hk1
    · simp only [Function.iterate_zero, id_eq] at hk; omega
    · have := @iter_le_heapPar k (2 * r + 2) hk1
      rw [hk, heapPar_child_right] at this; omega
  · obtain ⟨k, hk⟩ := h
    rcases Nat.eq_zero_or_pos k with rfl | hk1
    · simp only [Function.iterate_zero, id_eq] at hk; omega
    · have := @iter_le_heapPar k (2 * r + 1) hk1
      rw [hk, heapPar_child_left] at this; omega

/-! ## `find_share_ring` is a permutation of the subtree -/

theorem fsr_aux_head (n fuel r : Nat) : ∃ t, fsr_aux n fuel r = r :: t := by
  cases fuel with
  | zero => exact ⟨[], rfl⟩
  | succ fuel =>
    unfold fsr_aux
    by_cases h1 : 2 * r + 1 < n
    · by_cases h2 : 2 * r + 2 < n
      · simp [h1, h2]
      · simp [h1, h2]
    · exact ⟨[], by simp [h1]⟩

theorem mem_fsr_aux_self (n fuel r : Nat) : r ∈ fsr_aux n fuel r := by
  obtain ⟨t, ht⟩ := fsr_aux_head n fuel r
  simp [ht]

/-- Every element of `fsr_aux n fuel r` is a descendant of `r` below `n`
(assuming enough fuel and `r < n`). -/
theorem fsr_aux_mem_imp {n : Nat} :
    ∀ {fuel r x : Nat}, n ≤ fuel + r → r < n → x ∈ fsr_aux n fuel r →
      x < n ∧ Anc r x := by
  intro fuel
  induction fuel with
  | zero =>
    intro r x hfuel hr hx
    simp [fsr_aux] at hx
    subst hx
    exact ⟨hr, anc_refl _⟩
  | succ fuel ih =>
    intro r x hfuel hr hx
    by_cases h1 : 2 * r + 1 < n
    · have hf1 : n ≤ fuel + (2 * r + 1) := by omega
      by_cases h2 : 2 * r + 2 < n
      · have hf2 : n ≤ fuel + (2 * r + 2) := by omega
        simp [fsr_aux, h1, h2] at hx
        rcases hx with hxr | hx | hx
        · subst hxr; exact ⟨hr, anc_refl _⟩
        · obtain ⟨hxn, ha⟩ := ih hf1 h1 hx
          exact ⟨hxn, anc_of_parent (heapPar_child_left r) ha⟩
        · obtain ⟨hxn, ha⟩ := ih hf2 h2 hx
          exact ⟨hxn, anc_of_parent (heapPar_child_right r) ha⟩
      · simp [fsr_aux, h1, h2] at hx
        rcases hx with hxr | hx
        · subst hxr; exact ⟨hr, anc_refl _⟩
        · obtain ⟨hxn, ha⟩ := ih hf1 h1 hx
          exact ⟨hxn, anc_of_parent (heapPar_child_left r) ha⟩
    · simp [fsr_aux, h1] at hx
      subst hx
      exact ⟨hr, anc_refl _⟩

/-- `fsr_aux` has no duplicates (assuming enough fuel and `r < n`). -/
theorem fsr_aux_nodup {n : Nat} :
    ∀ {fuel r : Nat}, n ≤ fuel + r → r < n → (fsr_aux n fuel r).Nodup := by
  intro fuel
  induction fuel with
  | zero => intro r _ _; simp [fsr_aux]
  | succ fuel ih =>
    intro r hfuel hr
    by_cases h1 : 2 * r + 1 < n
    · have hf1 : n ≤ fuel + (2 * r + 1) := by omega
      have hmem1 : ∀ x ∈ fsr_aux n fuel (2 * r + 1), x < n ∧ Anc (2 * r + 1) x :=
        fun x hx => fsr_aux_mem_imp hf1 h1 hx
      by_cases h2 : 2 * r + 2 < n
      · have hf2 : n ≤ fuel + (2 * r + 2) := by omega
        have hmem2 : ∀ x ∈ fsr_aux n fuel (2 * r + 2), x < n ∧ Anc (2 * r + 2) x :=
          fun x hx => fsr_aux_mem_imp hf2 h2 hx
        simp only [fsr_aux, h1, h2, if_true, List.nodup_cons]
        constructor
        · intro hmem
          simp only [List.mem_append, List.mem_reverse] at hmem
          rcases hmem with h | h
          · have := anc_le (hmem1 r h).2; omega
          · have := anc_le (hmem2 r h).2; omega
        · refine List.Nodup.append (ih hf1 h1) (List.nodup_reverse.mpr (ih hf2 h2)) ?_
          intro x hx hx'
          rw [List.mem_reverse] at hx'
          exact anc_children_disjoint (hmem1 x hx).2 (hmem2 x hx').2
      · simp only [fsr_aux, h1, h2, if_true, if_false, List.nodup_cons]
        refine ⟨?_, List.nodup_reverse.mpr (ih hf1 h1)⟩
        intro hmem
        rw [List.mem_reverse] at hmem
        have := anc_le (hmem1 r hmem).2; omega
    · simp [fsr_aux, h1]

/-- Every descendant of `r` below `n` occurs in `fsr_aux n fuel r`
(assuming enough fuel). -/
theorem anc_mem_fsr_aux {n : Nat} :
    ∀ (kc : Nat) {fuel r x : Nat}, n ≤ fuel + r → r < n → x < n →
      heapPar^[kc] x = r → x ∈ fsr_aux n fuel r := by
  intro kc
  induction kc using Nat.strong_induction_on with
  | _ kc ih =>
    intro fuel r x hfuel hr hx hchain
    by_cases hxr : x = r
    · exact hxr ▸ mem_fsr_aux_self n fuel r
    · obtain ⟨c, k', hc, hcr, hchain'⟩ := anc_decompose ⟨kc, hchain⟩ hxr
      have hcx : c ≤ x := by simpa [hchain'] using heapPar_iter_le k' x
      have hcn : c < n := lt_of_le_of_lt hcx hx
      have hk'lt : k' < kc := by
        by_contra hle
        push_neg at hle
        obtain ⟨d, rfl⟩ := Nat.exists_eq_add_of_le hle
        rw [Nat.add_comm, Function.iterate_add_apply, hchain] at hchain'
        have : c ≤ r := by
          rcases Nat.eq_zero_or_pos d with rfl | hd
          · simp at hchain'; omega
          · have := heapPar_iter_le d r; omega
        have := child_eq hc hcr
        omega
      cases fuel with
      | zero => omega
      | succ fuel =>
        rcases child_eq hc hcr with rfl | rfl
        · have hf1 : n ≤ fuel + (2 * r + 1) := by omega
          have hmem : x ∈ fsr_aux n fuel (2 * r + 1) :=
            ih k' hk'lt hf1 hcn hx hchain'
          by_cases h2 : 2 * r + 2 < n
          · simp [fsr_aux, hcn, h2, hmem]
          · simp [fsr_aux, hcn, h2, hmem]
        · have h1 : 2 * r + 1 < n := by omega
          have hf2 : n ≤ fuel + (2 * r + 2) := by omega
          have hmem : x ∈ fsr_aux n fuel (2 * r + 2) :=
            ih k' hk'lt hf2 hcn hx hchain'
          simp [fsr_aux, h1, hcn, hmem]

/-- `find_share_ring n 0` (= `rlst n`) is a permutation of `range n`. -/
theorem rlst_perm_range (n : Nat) (hn : 1 ≤ n) : (rlst n).Perm (List.range n) := by
  have hfuel : n ≤ n + 0 := by omega
  have hnd : (rlst n).Nodup := fsr_aux_nodup hfuel hn
  rw [List.perm_ext_iff_of_nodup hnd (List.nodup_range n)]
  intro x
  rw [List.mem_range]
  constructor
  · intro hx
    exact (fsr_aux_mem_imp hfuel hn hx).1
  · intro hx
    obtain ⟨k, hk⟩ := anc_zero x
    exact anc_mem_fsr_aux k hfuel hn hx hk

theorem rlst_length (n : Nat) (hn : 1 ≤ n) : (rlst n).length = n := by
  simpa using (rlst_perm_range n hn).length_eq

theorem rlst_nodup (n : Nat) (hn : 1 ≤ n) : (rlst n).Nodup :=
  fsr_aux_nodup (by omega) hn

theorem rlst_head (n : Nat) : ∃ t, rlst n = 0 :: t := fsr_aux_head n n 0

theorem rlst_getD_zero (n : Nat) : (rlst n).getD 0 0 = 0 := by
  obtain ⟨t, ht⟩ := rlst_head n
  simp [ht]

theorem rlst_getD_lt (n : Nat) (hn : 1 ≤ n) {i : Nat} (hi : i < n) :
    (rlst n).getD i 0 < n := by
  have hlen : i < (rlst n).length := by rw [rlst_length n hn]; exact hi
  have : (rlst n).getD i 0 ∈ rlst n := by
    rw [List.getD_eq_getElem _ _ hlen]
    exact List.getElem_mem hlen
  have := (rlst_perm_range n hn).mem_iff.1 this
  simpa using this

/-! ## Index bookkeeping for the ring and the relabelling walk -/

theorem rlst_indexOf_getD (n : Nat) (hn : 1 ≤ n) {i : Nat} (hi : i < n) :
    (rlst n).indexOf ((rlst n).getD i 0) = i := by
  have hlen : i < (rlst n).length := by rw [rlst_length n hn]; exact hi
  rw [List.getD_eq_getElem _ _ hlen]
  exact List.indexOf_getElem (rlst_nodup n hn) i hlen

theorem rlst_getD_inj (n : Nat) (hn : 1 ≤ n) {i j : Nat} (hi : i < n) (hj : j < n)
    (h : (rlst n).getD i 0 = (rlst n).getD j 0) : i = j := by
  have h1 := rlst_indexOf_getD n hn hi
  rw [h, rlst_indexOf_getD n hn hj] at h1
  exact h1.symm

/-- `get_ring` at the `i`-th entry of `rlst` reads off the two ring
neighbours at positions `i ∓ 1 (mod n)`. -/
theorem ring_map_getD (n : Nat) (hn : 1 ≤ n) {i : Nat} (hi : i < n) :
    ring_map n ((rlst n).getD i 0) =
      ((rlst n).getD ((i + n - 1) % n) 0, (rlst n).getD ((i + 1) % n) 0) := by
  simp only [ring_map]
  rw [rlst_indexOf_getD n hn hi]

theorem rmap_fold_snd (n : Nat) (hn : 1 ≤ n) :
    ∀ m, m < n →
      ((List.range m).foldl (rmap_step n) (fun _ => 0, 0)).2 = (rlst n).getD m 0 := by
  intro m
  induction m with
  | zero =>
    intro _
    simpa using (rlst_getD_zero n).symm
  | succ m ih =>
    intro hm
    rw [List.range_succ, List.foldl_append, List.foldl_cons, List.foldl_nil]
    have hm' : m < n := by omega
    show (ring_map n (((List.range m).foldl (rmap_step n) (fun _ => 0, 0)).2)).2 = _
    rw [ih hm', ring_map_getD n hn hm', Nat.mod_eq_of_lt hm]

theorem rmap_fold_fst (n : Nat) (hn : 1 ≤ n) :
    ∀ m, m < n → ∀ j, j ≤ m →
      ((List.range m).foldl (rmap_step n) (fun _ => 0, 0)).1 ((rlst n).getD j 0) = j := by
  intro m
  induction m with
  | zero =>
    intro _ j hj
    have hj0 : j = 0 := by omega
    subst hj0
    simp [rlst_getD_zero n]
  | succ m ih =>
    intro hm j hj
    rw [List.range_succ, List.foldl_append, List.foldl_cons, List.foldl_nil]
    have hm' : m < n := by omega
    show (Function.update ((List.range m).foldl (rmap_step n) (fun _ => 0, 0)).1
      ((ring_map n (((List.range m).foldl (rmap_step n) (fun _ => 0, 0)).2)).2) (m + 1))
      ((rlst n).getD j 0) = j
    rw [rmap_fold_snd n hn m hm', ring_map_getD n hn hm', Nat.mod_eq_of_lt hm]
    by_cases hjm : j = m + 1
    · subst hjm
      simp
    · have hne : (rlst n).getD j 0 ≠ (rlst n).getD (m + 1) 0 := by
        intro h
        exact hjm (rlst_getD_inj n hn (by omega) hm h)
      rw [Function.update_noteq hne]
      exact ih hm' j (by omega)

/-- The dict `rmap` maps the `j`-th entry of the ring walk to `j`. -/
theorem rmap_fun_getD (n : Nat) (hn : 1 ≤ n) {j : Nat} (hj : j < n) :
    rmap_fun n ((rlst n).getD j 0) = j := by
  unfold rmap_fun
  exact rmap_fold_fst n hn (n - 1) (by omega) j (by omega)

theorem rlst_map_rmap (n : Nat) (hn : 1 ≤ n) :
    (rlst n).map (rmap_fun n) = List.range n := by
  apply List.ext_getElem
  · simp [rlst_length n hn]
  · intro i h1 h2
    have hi : i < n := by
      have := h1
      rw [List.length_map, rlst_length n hn] at this
      exact this
    have hlen : i < (rlst n).length := by rw [rlst_length n hn]; exact hi
    simp only [List.getElem_map, List.getElem_range]
    rw [← List.getD_eq_getElem (rlst n) 0 hlen]
    exact rmap_fun_getD n hn hi

/-- The keys of the relabelled dicts (`rmap[k]` for `k in range(n)`) are
pairwise distinct. -/
theorem rmap_keys_nodup (n : Nat) (hn : 1 ≤ n) :
    ((List.range n).map (rmap_fun n)).Nodup := by
  have hperm : ((List.range n).map (rmap_fun n)).Perm ((rlst n).map (rmap_fun n)) :=
    ((rlst_perm_range n hn).map _).symm
  rw [rlst_map_rmap n hn] at hperm
  exact hperm.nodup_iff.mpr (List.nodup_range n)

/-- Association-list lookup returns the value of the (unique) matching key. -/
theorem lookup_eq_some_of_mem {β : Type} :
    ∀ (l : List (Nat × β)) (j : Nat) (b : β),
      (l.map Prod.fst).Nodup → (j, b) ∈ l → l.lookup j = some b := by
  intro l
  induction l with
  | nil => intro j b _ h; simp at h
  | cons p t ih =>
    intro j b hnd hmem
    obtain ⟨a, c⟩ := p
    simp only [List.map_cons, List.nodup_cons] at hnd
    rcases List.mem_cons.mp hmem with heq | hmem'
    · obtain ⟨rfl, rfl⟩ := Prod.mk.injEq .. ▸ heq
      simp [List.lookup]
    · have hja : j ≠ a := by
        intro h
        subst h
        exact hnd.1 (List.mem_map.mpr ⟨(j, b), hmem', rfl⟩)
      have : (j == a) = false := beq_false_of_ne hja
      simp only [List.lookup, this]
      exact ih j b hnd.2 hmem'

/-- Lookup in one of the relabelled dicts: the entry for key `j < n`
is the transform of the original key `rlst[j]`. -/
theorem items_lookup {β : Type} (g : Nat → β) (n : Nat) (hn : 1 ≤ n)
    {j : Nat} (hj : j < n) :
    (((List.range n).map (fun k => (rmap_fun n k, g k))).lookup j)
      = some (g ((rlst n).getD j 0)) := by
  apply lookup_eq_some_of_mem
  · rw [List.map_map]
    exact rmap_keys_nodup n hn
  · have hk0 : (rlst n).getD j 0 < n := rlst_getD_lt n hn hj
    refine List.mem_map.mpr ⟨(rlst n).getD j 0, List.mem_range.mpr hk0, ?_⟩
    rw [rmap_fun_getD n hn hj]

theorem tree_map_c_eq (n : Nat) (hn : 1 ≤ n) {j : Nat} (hj : j < n) :
    tree_map_c n j = (tree_map n ((rlst n).getD j 0)).map (rmap_fun n) := by
  unfold tree_map_c tree_items
  rw [items_lookup _ n hn hj]
  rfl

theorem parent_map_c_eq (n : Nat) (hn : 1 ≤ n) {j : Nat} (hj : j < n) :
    parent_map_c n j =
      (if (rlst n).getD j 0 = 0 then (-1 : Int)
        else (rmap_fun n (parent_map ((rlst n).getD j 0)).toNat : Int)) := by
  unfold parent_map_c parent_items
  rw [items_lookup _ n hn hj]
  rfl

theorem ring_map_c_eq (n : Nat) (hn : 1 ≤ n) {j : Nat} (hj : j < n) :
    ring_map_c n j =
      (rmap_fun n (ring_map n ((rlst n).getD j 0)).1,
        rmap_fun n (ring_map n ((rlst n).getD j 0)).2) := by
  unfold ring_map_c ring_items
  rw [items_lookup _ n hn hj]
  rfl

/-- After the canonical relabelling, the ring neighbours of rank `j` are
`(j - 1) mod n` and `(j + 1) mod n`. -/
theorem ring_map_c_canonical (n : Nat) (hn : 1 ≤ n) {j : Nat} (hj : j < n) :
    ring_map_c n j = ((j + n - 1) % n, (j + 1) % n) := by
  rw [ring_map_c_eq n hn hj, ring_map_getD n hn hj]
  have h1 : (j + n - 1) % n < n := Nat.mod_lt _ (by omega)
  have h2 : (j + 1) % n < n := Nat.mod_lt _ (by omega)
  rw [rmap_fun_getD n hn h1, rmap_fun_getD n hn h2]

theorem ring_next_iter (n : Nat) (hn : 1 ≤ n) :
    ∀ i, i < n → (fun r => (ring_map_c n r).2)^[i] 0 = i := by
  intro i
  induction i with
  | zero => intro _; simp
  | succ i ih =>
    intro hi
    rw [Function.iterate_succ_apply', ih (by omega)]
    show (ring_map_c n i).2 = i + 1
    rw [ring_map_c_canonical n hn (by omega : i < n)]
    exact Nat.mod_eq_of_lt hi

/-- C1: for every `N ≥ 1`, `get_link_map(N)` returns a canonically
relabelled ring: `ring[r] = ((r - 1) mod N, (r + 1) mod N)` for every
rank `r` (so `ring[r].next = (r + 1) mod N`), and following `next` from
rank 0 visits every rank exactly once before returning to 0 — a single
Hamiltonian cycle. -/
theorem link_map_ring_canonical (n : Nat) (hn : 1 ≤ n) :
    (∀ r, r < n → ring_map_c n r = ((r + n - 1) % n, (r + 1) % n)) ∧
    (List.range n).map (fun i => (fun r => (ring_map_c n r).2)^[i] 0) = List.range n ∧
    (fun r => (ring_map_c n r).2)^[n] 0 = 0 := by
  refine ⟨fun r hr => ring_map_c_canonical n hn hr, ?_, ?_⟩
  · apply List.ext_getElem
    · simp
    · intro i h1 h2
      simp only [List.getElem_map, List.getElem_range]
      refine ring_next_iter n hn i ?_
      simpa using h1
  · obtain ⟨m, rfl⟩ : ∃ m, n = m + 1 := ⟨n - 1, by omega⟩
    rw [Function.iterate_succ_apply', ring_next_iter (m + 1) hn m (by omega)]
    show (ring_map_c (m + 1) m).2 = 0
    rw [ring_map_c_canonical (m + 1) hn (by omega : m < m + 1)]
    simp

/-- Witness for C1 at `N = 5`, rank 2. -/
theorem link_map_ring_canonical_witness :
    ring_map_c 5 2 = ((2 + 5 - 1) % 5, (2 + 1) % 5) ∧
    (List.range 5).map (fun i => (fun r => (ring_map_c 5 r).2)^[i] 0) = List.range 5 :=
  ⟨(link_map_ring_canonical 5 (by decide)).1 2 (by decide),
    (link_map_ring_canonical 5 (by decide)).2.1⟩

/-! ## C8: parent pointers sit inside the tree neighbour sets -/

theorem get_neighbor_nodup (k n : Nat) : (get_neighbor k n).Nodup := by
  unfold get_neighbor
  by_cases h1 : k + 1 > 1 <;> by_cases h2 : (k + 1) * 2 - 1 < n <;>
    by_cases h3 : (k + 1) * 2 < n <;> simp [h1, h2, h3] <;> omega

theorem get_neighbor_lt {n k x : Nat} (hk : k < n) (hx : x ∈ get_neighbor k n) :
    x < n := by
  simp only [get_neighbor] at hx
  split_ifs at hx <;> simp at hx <;> omega

theorem rmap_fun_lt (n : Nat) (hn : 1 ≤ n) {k : Nat} (hk : k < n) :
    rmap_fun n k < n := by
  have hk' : k ∈ rlst n := (rlst_perm_range n hn).mem_iff.2 (List.mem_range.mpr hk)
  have hmem : rmap_fun n k ∈ (rlst n).map (rmap_fun n) := List.mem_map_of_mem _ hk'
  rw [rlst_map_rmap n hn] at hmem
  exact List.mem_range.mp hmem

theorem rmap_fun_inj (n : Nat) (hn : 1 ≤ n) {a b : Nat} (ha : a < n) (hb : b < n)
    (h : rmap_fun n a = rmap_fun n b) : a = b := by
  have hnd : ((rlst n).map (rmap_fun n)).Nodup := by
    rw [rlst_map_rmap n hn]; exact List.nodup_range n
  have hma : a ∈ rlst n := (rlst_perm_range n hn).mem_iff.2 (List.mem_range.mpr ha)
  have hmb : b ∈ rlst n := (rlst_perm_range n hn).mem_iff.2 (List.mem_range.mpr hb)
  exact List.inj_on_of_nodup_map hnd hma hmb h

theorem parent_map_toNat {k : Nat} (hk : 1 ≤ k) : (parent_map k).toNat = heapPar k := by
  unfold parent_map heapPar
  omega

theorem heapPar_mem_tree (n : Nat) {k : Nat} (hk : 1 ≤ k) :
    heapPar k ∈ tree_map n k := by
  unfold tree_map get_neighbor heapPar
  have h : k + 1 > 1 := by omega
  simp [h]

theorem heapPar_lt_of_lt {n k : Nat} (hk : 1 ≤ k) (hkn : k < n) : heapPar k < n := by
  unfold heapPar; omega

/-- C8: for every `N ≥ 1`, `get_link_map(N)` satisfies `parent[0] = -1`
and, for every rank `0 < r < N`, `parent[r]` is one of the tree
neighbours `tree[r]`. -/
theorem link_map_parent_in_tree (n : Nat) (hn : 1 ≤ n) :
    parent_map_c n 0 = -1 ∧
    ∀ r, 0 < r → r < n → ∃ t ∈ tree_map_c n r, parent_map_c n r = (t : Int) := by
  constructor
  · rw [parent_map_c_eq n hn hn, rlst_getD_zero n]
    simp
  · intro r hr0 hrn
    have hk0 : (rlst n).getD r 0 < n := rlst_getD_lt n hn hrn
    have hk0ne : (rlst n).getD r 0 ≠ 0 := by
      intro h
      have heq : (rlst n).getD r 0 = (rlst n).getD 0 0 := by
        rw [h, rlst_getD_zero n]
      exact absurd (rlst_getD_inj n hn hrn hn heq) (by omega)
    have hk1 : 1 ≤ (rlst n).getD r 0 := by omega
    rw [parent_map_c_eq n hn hrn, if_neg hk0ne, tree_map_c_eq n hn hrn,
      parent_map_toNat hk1]
    refine ⟨rmap_fun n (heapPar ((rlst n).getD r 0)), ?_, rfl⟩
    exact List.mem_map_of_mem _ (heapPar_mem_tree n hk1)

/-- Witness for C8 at `N = 6`, rank 4. -/
theorem link_map_parent_in_tree_witness :
    ∃ t ∈ tree_map_c 6 4, parent_map_c 6 4 = (t : Int) :=
  (link_map_parent_in_tree 6 (by decide)).2 4 (by decide) (by decide)

/-! ## The rank packet of `assign_rank` (pre-handshake sends) -/

/-- `nnset = set(tree_map[rank])` inside `assign_rank`, iterated in
ascending order. -/
def nnset0 (n rank : Nat) : List Nat :=
  List.insertionSort (· ≤ ·) (tree_map_c n rank).dedup

/-- `WorkerEntry.assign_rank`: the integers written on the worker socket
before the handshake loop, in order — `rank`, `parent_map[rank]`,
`len(tree_map)` (the world size), `len(nnset)`, the members of `nnset`,
then the ring prev and next links, each replaced by −1 when equal to −1
or to `rank` itself. -/
def assign_rank_sends (n rank : Nat) : List Int :=
  let nnset := nnset0 n rank
  let rprev := (ring_map_c n rank).1
  let rnext := (ring_map_c n rank).2
  [(rank : Int), parent_map_c n rank, ((tree_items n).length : Int),
    (nnset.length : Int)]
    ++ nnset.map (fun x => (x : Int))
    ++ [if (rprev : Int) = -1 ∨ rprev = rank then -1 else (rprev : Int)]
    ++ [if (rnext : Int) = -1 ∨ rnext = rank then -1 else (rnext : Int)]

/-- The rank packet as the spec describes it: `r`; `parent[r]`; `N`; the
number of tree neighbours of `r`; each tree neighbour rank (ascending);
then `ring[r].prev` or −1 if it equals −1 or `r`; then `ring[r].next` on
the same condition. -/
def assign_rank_sends_spec (n rank : Nat) : List Int :=
  let neighbours := List.insertionSort (· ≤ ·) (tree_map_c n rank)
  let rprev := (ring_map_c n rank).1
  let rnext := (ring_map_c n rank).2
  [(rank : Int), parent_map_c n rank, (n : Int),
    ((tree_map_c n rank).length : Int)]
    ++ neighbours.map (fun x => (x : Int))
    ++ [if (rprev : Int) = -1 ∨ rprev = rank then -1 else (rprev : Int)]
    ++ [if (rnext : Int) = -1 ∨ rnext = rank then -1 else (rnext : Int)]

theorem tree_items_length (n : Nat) : (tree_items n).length = n := by
  unfold tree_items
  rw [List.length_map, List.length_range]

theorem tree_map_c_nodup (n : Nat) (hn : 1 ≤ n) {j : Nat} (hj : j < n) :
    (tree_map_c n j).Nodup := by
  rw [tree_map_c_eq n hn hj]
  have hk0 : (rlst n).getD j 0 < n := rlst_getD_lt n hn hj
  refine List.Nodup.map_on ?_ (get_neighbor_nodup _ n)
  intro x hx y hy hxy
  exact rmap_fun_inj n hn (get_neighbor_lt hk0 hx) (get_neighbor_lt hk0 hy) hxy

/-- C2: the rank packet written by `assign_rank` is exactly the sequence
the spec describes — rank, parent, world size `N`, neighbour count,
neighbour ranks, masked ring prev, masked ring next. -/
theorem assign_rank_sends_correct (n : Nat) (hn : 1 ≤ n) {r : Nat} (hr : r < n) :
    assign_rank_sends n r = assign_rank_sends_spec n r := by
  unfold assign_rank_sends assign_rank_sends_spec nnset0
  rw [List.dedup_eq_self.mpr (tree_map_c_nodup n hn hr), tree_items_length n]
  simp only [List.length_insertionSort]

/-- Witness for C2 at `N = 3`, rank 1. -/
theorem assign_rank_sends_correct_witness :
    assign_rank_sends 3 1 = assign_rank_sends_spec 3 1 :=
  assign_rank_sends_correct 3 (by decide) (by decide)

/-! ## C5: the concrete `N = 4` packet for rank 0 -/

/-- Counterexample to C5 as stated: at `N = 4` the tree neighbour set of
rank 0 is `{1, 3}` (not `{1}`), and the last integer of the rank packet
(the wire `ring_next`) is `1`, sent verbatim, not −1: `assign_rank`
masks a ring link only when it equals −1 or the rank itself, never
because it coincides with a tree neighbour. -/
theorem n4_rank0_packet_counterexample :
    (3 ∈ tree_map_c 4 0) ∧ assign_rank_sends 4 0 ≠ [0, -1, 4, 1, 1, 3, -1] ∧
      (assign_rank_sends 4 0).getLast? = some 1 := by
  decide

/-! ## C4: `ExSocket.recvall` -/

/-- One loop iteration of `ExSocket.recvall` per fuel unit.  The socket
is modelled by the list of bytes the peer delivers before closing the
connection: `self.sock.recv(k)` hands over up to `k` of the remaining
bytes and returns the empty chunk once the stream is exhausted (peer
closed).  `none` means the loop has not returned within `fuel`
iterations. -/
def recvall_loop (nbytes : Nat) : Nat → List Nat → Nat → List Nat → Option (List Nat)
  | 0, _, _, _ => none
  | fuel + 1, stream, nread, res =>
    if nread < nbytes then
      let chunk := stream.take (min (nbytes - nread) 1024)
      recvall_loop nbytes fuel (stream.drop (min (nbytes - nread) 1024))
        (nread + chunk.length) (res ++ chunk)
    else some res

/-- `ExSocket.recvall(nbytes)` on a connection that will deliver
`stream` and then close. -/
def recvall (fuel : Nat) (stream : List Nat) (nbytes : Nat) : Option (List Nat) :=
  recvall_loop nbytes fuel stream 0 []

/-- Once the peer has closed with fewer than `nbytes` bytes delivered in
total, every further `recv` returns the empty chunk, `nread` never
advances, and the loop never returns. -/
theorem recvall_loop_none {nbytes : Nat} :
    ∀ (fuel : Nat) (stream : List Nat) (nread : Nat) (res : List Nat),
      nread + stream.length < nbytes →
      recvall_loop nbytes fuel stream nread res = none := by
  intro fuel
  induction fuel with
  | zero => intro _ _ _ _; rfl
  | succ fuel ih =>
    intro stream nread res h
    have hlt : nread < nbytes := by omega
    simp only [recvall_loop, if_pos hlt]
    apply ih
    rw [List.length_take, List.length_drop]
    omega

/-- With at least `nbytes` bytes available, the loop returns exactly the
first `nbytes` bytes of the stream (each iteration reads at least one
byte, so `nbytes + 1` iterations always suffice). -/
theorem recvall_loop_some {nbytes : Nat} :
    ∀ (fuel : Nat) (stream : List Nat) (nread : Nat) (res : List Nat),
      nread ≤ nbytes → nbytes ≤ nread + stream.length → nbytes - nread < fuel →
      recvall_loop nbytes fuel stream nread res
        = some (res ++ stream.take (nbytes - nread)) := by
  intro fuel
  induction fuel with
  | zero => intro _ _ _ _ _ h; omega
  | succ fuel ih =>
    intro stream nread res h1 h2 h3
    by_cases hlt : nread < nbytes
    · simp only [recvall_loop, if_pos hlt]
      have hmle : min (nbytes - nread) 1024 ≤ stream.length := by omega
      have hcl : (stream.take (min (nbytes - nread) 1024)).length
          = min (nbytes - nread) 1024 := by
        rw [List.length_take]; omega
      rw [hcl]
      have h1' : nread + min (nbytes - nread) 1024 ≤ nbytes := by omega
      have h2' : nbytes ≤ nread + min (nbytes - nread) 1024
          + (stream.drop (min (nbytes - nread) 1024)).length := by
        rw [List.length_drop]; omega
      have h3' : nbytes - (nread + min (nbytes - nread) 1024) < fuel := by omega
      rw [ih (stream.drop (min (nbytes - nread) 1024))
        (nread + min (nbytes - nread) 1024)
        (res ++ stream.take (min (nbytes - nread) 1024)) h1' h2' h3']
      rw [List.append_assoc, ← List.take_add]
      have harg : min (nbytes - nread) 1024
          + (nbytes - (nread + min (nbytes - nread) 1024)) = nbytes - nread := by
        omega
      rw [harg]
    · have heq : nread = nbytes := by omega
      simp only [recvall_loop, if_neg hlt]
      rw [heq, Nat.sub_self, List.take_zero, List.append_nil]

/-- `recvall` really does return exactly `n` bytes whenever the peer
delivers at least `n` before closing. -/
theorem recvall_exact (stream : List Nat) (nbytes : Nat) (h : nbytes ≤ stream.length) :
    recvall (nbytes + 1) stream nbytes = some (stream.take nbytes) := by
  unfold recvall
  rw [recvall_loop_some (nbytes + 1) stream 0 [] (by omega) (by omega) (by omega)]
  simp

/-- C4 (code bug): when the peer closes the connection before `n` bytes
have arrived — here `recvall(4)` on a connection that closed after 0
bytes — the loop never terminates, for any number of iterations: `recv`
returns the empty chunk forever and no error is raised, contradicting
the documented fatal-error behaviour. -/
theorem recvall_starves : ∀ fuel, recvall fuel [] 4 = none := by
  intro fuel
  exact recvall_loop_none fuel [] 0 [] (by simp)

/-- C5 (amended): for `N = 4`, after canonical relabelling the ring is
`0 → 1 → 2 → 3 → 0`; the rank packet for rank 0 carries `parent = −1`,
tree neighbour set `{1, 3}`, and both wire ring links sent verbatim:
`ring_prev = 3` and `ring_next = 1` (the −1 masking applies only when a
ring link equals −1 or the rank itself). -/
theorem n4_rank0_packet :
    ring_map_c 4 0 = (3, 1) ∧ ring_map_c 4 1 = (0, 2) ∧
    ring_map_c 4 2 = (1, 3) ∧ ring_map_c 4 3 = (2, 0) ∧
    parent_map_c 4 0 = -1 ∧ tree_map_c 4 0 = [1, 3] ∧
    assign_rank_sends 4 0 = [0, -1, 4, 2, 1, 3, 3, 1] := by
  decide

/-! ## The rendezvous coordinator (`accept_workers`) -/

/-- The command string of a worker session header.  The source asserts
`cmd in ("start", "recover")` after handling `print` and `shutdown`;
other strings are fatal and are not modelled. -/
inductive Cmd
  | start
  | recover
  | shutdownCmd
  | printCmd
  deriving DecidableEq, Repr

/-- One worker session as the coordinator sees it: the header fields
read after the magic exchange (`rank`, `world_size`, `jobid`, `cmd`,
with `host` the resolved peer address), plus the worker-side behaviour
of the final handshake round of `assign_rank` — the `good` set it
reports together with `nerr = 0`, and the listening `port` it then
announces.  Rounds with `nerr ≠ 0` only re-send data and leave the
coordinator state unchanged, so they are not modelled. -/
structure Msg where
  host : String
  rank : Int
  world_size : Int
  jobid : String
  cmd : Cmd
  good : List Nat
  port : Int
  deriving DecidableEq, Repr

/-- The per-worker entry fields that outlive the session: `host`, the
assigned `rank`, the `wait_accept` counter and the recorded listening
`port` (`None` until the handshake reports it). -/
structure WEntry where
  host : String
  rank : Nat
  wait_accept : Int
  port : Option Int
  deriving DecidableEq, Repr

/-- Coordinator state owned by `accept_workers`.  The overlay maps are
fully determined by `n_workers` once `inited` is set (the source builds
`get_link_map(n_workers)` exactly once and never mutates it), so only
`n_workers` and the `inited` flag are stored.  `log` records, in order,
one `(host, rank)` pair per `assign_rank` call — the rank integer sent
on that session's socket. -/
structure TState where
  n_workers : Nat
  shutdown : List Nat
  wait_conn : List (Nat × WEntry)
  job_map : List (String × Int)
  pending : List Msg
  todo_nodes : List Nat
  inited : Bool
  log : List (String × Nat)
  deriving DecidableEq, Repr

/-- State at entry of `accept_workers(n_workers)`. -/
def init_state (n : Nat) : TState :=
  { n_workers := n, shutdown := [], wait_conn := [], job_map := [],
    pending := [], todo_nodes := [], inited := false, log := [] }

def nullJobid : String := "NULL"

def errShutdown : String := "shutdown assertion failed"

def errFirstStart : String := "first session must be a start"

def errWorldSize : String := "world_size assertion failed"

def errRecoverRank : String := "recover must declare a rank"

def errTodoEmpty : String := "todo_nodes assertion failed"

def errRankKey : String := "rank is not a key of tree_map"

def errGoodSubset : String := "goodset not a subset of nnset"

def errPortNone : String := "advertised peer has no recorded port"

def errTodoPop : String := "pop from empty todo_nodes"

def errBlocked : String := "accept loop starves waiting for workers"

/-- `WorkerEntry.decide_rank`. -/
def decide_rank (rank : Int) (jobid : String) (job_map : List (String × Int)) : Int :=
  if rank ≥ 0 then rank
  else if jobid ≠ nullJobid ∧ (job_map.lookup jobid).isSome then
    (job_map.lookup jobid).getD (-1)
  else -1

/-- The final `nnset` of `assign_rank`: the tree neighbours of `rank`
plus each ring link that is not masked (i.e. not −1 and not `rank`
itself), as the ascending list CPython iterates. -/
def session_nnset (n rank : Nat) : List Nat :=
  let rprev := (ring_map_c n rank).1
  let rnext := (ring_map_c n rank).2
  List.insertionSort (· ≤ ·)
    ((tree_map_c n rank)
      ++ (if (rprev : Int) = -1 ∨ rprev = rank then [] else [rprev])
      ++ (if (rnext : Int) = -1 ∨ rnext = rank then [] else [rnext])).dedup

/-- Python dict assignment `job_map[jobid] = rank` on the association
list: replace in place, or append when the key is absent. -/
def jmUpd (l : List (String × Int)) (k : String) (v : Int) : List (String × Int) :=
  if (l.lookup k).isSome then
    l.map (fun p => if p.1 = k then (k, v) else p)
  else l ++ [(k, v)]

/-- Python dict assignment `wait_conn[rank] = s`: replace in place, or
append when the key is absent. -/
def wcUpd (l : List (Nat × WEntry)) (k : Nat) (v : WEntry) : List (Nat × WEntry) :=
  if (l.lookup k).isSome then
    l.map (fun p => if p.1 = k then (k, v) else p)
  else l ++ [(k, v)]

/-- State effect of `WorkerEntry.assign_rank` at the final handshake
round: assert `goodset ⊆ nnset`; split `badset = nnset − goodset` into
`conset` (peers present in `wait_conn`) and the rest; assert every
advertised peer has a recorded port; record the worker's port; decrement
`wait_accept` of every `conset` member, removing the ones that reach 0;
give the served entry `wait_accept = len(badset) − len(conset)`. -/
def assign_rank_state (n rank : Nat) (m : Msg) (wc : List (Nat × WEntry)) :
    Except String (WEntry × List (Nat × WEntry)) :=
  let nnset := session_nnset n rank
  if m.good.all (fun r => nnset.contains r) then
    let badset := nnset.filter (fun r => !(m.good.contains r))
    let conset := badset.filter (fun r => (wc.lookup r).isSome)
    if conset.all (fun r => ((wc.lookup r).bind (fun e => e.port)).isSome) then
      let wc1 := (wc.map (fun p =>
        if conset.contains p.1 then
          (p.1, { p.2 with wait_accept := p.2.wait_accept - 1 })
        else p)).filter
          (fun p => !(conset.contains p.1 && p.2.wait_accept == 0))
      Except.ok
        ({ host := m.host, rank := rank,
           wait_accept := (badset.length : Int) - (conset.length : Int),
           port := some m.port }, wc1)
    else Except.error errPortNone
  else Except.error errGoodSubset

/-- The batch-assignment loop `for s in pending: rank = todo_nodes.pop(0); …`
run over the (already sorted) pending entries.  Note the source never
clears the `pending` list afterwards. -/
def flush_fold : List Msg → TState → Except String TState
  | [], st => Except.ok st
  | s :: rest, st =>
    match st.todo_nodes with
    | [] => Except.error errTodoPop
    | rank :: todo1 =>
      let jm := if s.jobid ≠ nullJobid then jmUpd st.job_map s.jobid rank
        else st.job_map
      match assign_rank_state st.n_workers rank s st.wait_conn with
      | Except.error e => Except.error e
      | Except.ok (e, wc1) =>
        flush_fold rest
          { st with
            todo_nodes := todo1,
            job_map := jm,
            wait_conn := if e.wait_accept > 0 then wcUpd wc1 rank e else wc1,
            log := st.log ++ [(s.host, rank)] }

/-- The lazy-initialisation block of `accept_workers`: on the first
`start`/`recover` session, require `start`, adopt the session's
`world_size` when positive and build `todo_nodes`; on later sessions,
assert `world_size in (-1, n_workers)`. -/
def lazy_init (st : TState) (m : Msg) : Except String TState :=
  if st.inited = false then
    if m.cmd = Cmd.start then
      Except.ok
        { st with
          n_workers := if m.world_size > 0 then m.world_size.toNat else st.n_workers,
          todo_nodes :=
            List.range (if m.world_size > 0 then m.world_size.toNat else st.n_workers),
          inited := true }
    else Except.error errFirstStart
  else
    if m.world_size = -1 ∨ m.world_size = (st.n_workers : Int) then Except.ok st
    else Except.error errWorldSize

/-- The body of `accept_workers` for a `start`/`recover` session after
the lazy-initialisation block: the recover-rank assert, `decide_rank`,
then either the batch path (append to `pending`, flush when
`len(pending) == len(todo_nodes)`) or the immediate `assign_rank`. -/
def handle_session (st1 : TState) (m : Msg) : Except String TState :=
  if m.cmd = Cmd.recover ∧ m.rank < 0 then Except.error errRecoverRank
  else
    if decide_rank m.rank m.jobid st1.job_map = -1 then
      if st1.todo_nodes = [] then Except.error errTodoEmpty
      else
        if (st1.pending ++ [m]).length = st1.todo_nodes.length then
          flush_fold
            (List.insertionSort (fun a b => a.host ≤ b.host) (st1.pending ++ [m]))
            { st1 with pending :=
                List.insertionSort (fun a b => a.host ≤ b.host) (st1.pending ++ [m]) }
        else Except.ok { st1 with pending := st1.pending ++ [m] }
    else
      if 0 ≤ decide_rank m.rank m.jobid st1.job_map ∧
          (decide_rank m.rank m.jobid st1.job_map).toNat < st1.n_workers then
        match assign_rank_state st1.n_workers
            (decide_rank m.rank m.jobid st1.job_map).toNat m st1.wait_conn with
        | Except.error e => Except.error e
        | Except.ok (e, wc1) =>
          Except.ok
            { st1 with
              wait_conn :=
                if e.wait_accept > 0 then
                  wcUpd wc1 (decide_rank m.rank m.jobid st1.job_map).toNat e
                else wc1,
              log := st1.log
                ++ [(m.host, (decide_rank m.rank m.jobid st1.job_map).toNat)] }
      else Except.error errRankKey

/-- One iteration of the `accept_workers` loop: accept one session and
process it.  Failed `assert`s — and the `KeyError` raised by indexing
`tree_map` with a rank that is not a key — surface as `Except.error`. -/
def step (st : TState) (m : Msg) : Except String TState :=
  match m.cmd with
  | Cmd.printCmd => Except.ok st
  | Cmd.shutdownCmd =>
    if 0 ≤ m.rank ∧ m.rank.toNat ∉ st.shutdown
        ∧ (st.wait_conn.lookup m.rank.toNat) = none then
      Except.ok { st with shutdown := st.shutdown ++ [m.rank.toNat] }
    else Except.error errShutdown
  | _ =>
    match lazy_init st m with
    | Except.error e => Except.error e
    | Except.ok st1 => handle_session st1 m

/-- Process a list of accepted sessions in order (without the loop-exit
test); the states so produced are the reachable coordinator states. -/
def steps (st : TState) : List Msg → Except String TState
  | [] => Except.ok st
  | m :: rest =>
    match step st m with
    | Except.ok st1 => steps st1 rest
    | Except.error e => Except.error e

/-- The `accept_workers` loop: before each accept the loop condition
`len(shutdown) != n_workers` is tested; the `Msg` list is the queue of
connections the workers will make.  Running out of queued connections
while the condition still holds models the loop blocking in `accept`. -/
def runMsgs : TState → List Msg → Except String TState
  | st, [] =>
    if st.shutdown.length = st.n_workers then Except.ok st
    else Except.error errBlocked
  | st, m :: rest =>
    if st.shutdown.length = st.n_workers then Except.ok st
    else
      match step st m with
      | Except.ok st1 => runMsgs st1 rest
      | Except.error e => Except.error e

/-! ## Coordinator invariants -/

/-- Every entry of `wait_conn` has a recorded listening port. -/
def WCok (wc : List (Nat × WEntry)) : Prop := ∀ p ∈ wc, p.2.port.isSome

theorem mem_of_lookup_eq_some {β : Type} :
    ∀ {l : List (Nat × β)} {k : Nat} {v : β}, l.lookup k = some v → (k, v) ∈ l := by
  intro l
  induction l with
  | nil => intro k v h; simp [List.lookup] at h
  | cons p t ih =>
    intro k v h
    obtain ⟨a, c⟩ := p
    by_cases hk : k = a
    · subst hk
      simp [List.lookup] at h
      subst h
      exact List.mem_cons_self _ _
    · have hb : (k == a) = false := beq_false_of_ne hk
      simp only [List.lookup, hb] at h
      exact List.mem_cons_of_mem _ (ih h)

/-- Under `WCok`, every peer of `wait_conn` that `assign_rank` advertises
(the members of `conset`) has a recorded port: the `assert port is not
None` can never fire. -/
theorem ports_check {wc : List (Nat × WEntry)} (hwc : WCok wc) (l : List Nat) :
    (l.filter (fun r => (wc.lookup r).isSome)).all
      (fun r => ((wc.lookup r).bind (fun e => e.port)).isSome) = true := by
  rw [List.all_eq_true]
  intro r hr
  rw [List.mem_filter] at hr
  obtain ⟨-, hsome⟩ := hr
  cases hlk : wc.lookup r with
  | none => rw [hlk] at hsome; simp at hsome
  | some e =>
    have hmem : (r, e) ∈ wc := mem_of_lookup_eq_some hlk
    have := hwc (r, e) hmem
    simpa using this

theorem errGood_ne_errPort : errGoodSubset ≠ errPortNone := by decide

/-- Port safety of one `assign_rank` handshake: starting from a
`wait_conn` whose entries all have ports, the port assertion cannot
fire, the served entry records the worker's announced port, and the
updated `wait_conn` again has all ports recorded. -/
theorem assign_rank_state_safe {n rank : Nat} {m : Msg} {wc : List (Nat × WEntry)}
    (hwc : WCok wc) :
    (∀ e wc1, assign_rank_state n rank m wc = Except.ok (e, wc1) →
      e.port = some m.port ∧ WCok wc1) ∧
    assign_rank_state n rank m wc ≠ Except.error errPortNone := by
  unfold assign_rank_state
  by_cases hgood : m.good.all (fun r => (session_nnset n rank).contains r) = true
  · rw [if_pos hgood, if_pos (ports_check hwc _)]
    constructor
    · intro e wc1 h
      injection h with h
      obtain ⟨he, hwc1⟩ := Prod.mk.injEq .. ▸ h
      subst he
      subst hwc1
      refine ⟨rfl, ?_⟩
      intro p hp
      rw [List.mem_filter] at hp
      obtain ⟨hp, -⟩ := hp
      rw [List.mem_map] at hp
      obtain ⟨q, hq, hpq⟩ := hp
      have hport := hwc q hq
      by_cases hc : ((session_nnset n rank).filter
          (fun r => !(m.good.contains r))).filter
          (fun r => (wc.lookup r).isSome) |>.contains q.1
      · rw [if_pos hc] at hpq
        subst hpq
        exact hport
      · rw [if_neg hc] at hpq
        subst hpq
        exact hport
    · intro h
      exact Except.noConfusion h
  · rw [if_neg hgood]
    constructor
    · intro e wc1 h
      exact Except.noConfusion h
    · intro h
      injection h with h
      exact errGood_ne_errPort h

theorem errShutdown_ne : errShutdown ≠ errPortNone := by decide

theorem errFirstStart_ne : errFirstStart ≠ errPortNone := by decide

theorem errWorldSize_ne : errWorldSize ≠ errPortNone := by decide

theorem errRecoverRank_ne : errRecoverRank ≠ errPortNone := by decide

theorem errTodoEmpty_ne : errTodoEmpty ≠ errPortNone := by decide

theorem errRankKey_ne : errRankKey ≠ errPortNone := by decide

theorem errTodoPop_ne : errTodoPop ≠ errPortNone := by decide

/-- A dict write of an entry with a recorded port keeps `WCok`. -/
theorem wcUpd_WCok {wc : List (Nat × WEntry)} (hwc : WCok wc) {k : Nat}
    {v : WEntry} (hv : v.port.isSome) : WCok (wcUpd wc k v) := by
  unfold wcUpd
  split_ifs
  · intro p hp
    rw [List.mem_map] at hp
    obtain ⟨q, hq, hpq⟩ := hp
    by_cases hqk : q.1 = k
    · rw [if_pos hqk] at hpq
      subst hpq
      exact hv
    · rw [if_neg hqk] at hpq
      subst hpq
      exact hwc q hq
  · intro p hp
    rcases List.mem_append.mp hp with hp | hp
    · exact hwc p hp
    · have : p = (k, v) := by simpa using hp
      subst this
      exact hv

/-- The `wait_conn` produced by an `assign_rank` (the updated map plus,
when the served entry still owes accepts, the entry itself under its new
rank) keeps all ports recorded. -/
theorem assign_insert_WCok {n rank : Nat} {m : Msg} {wc : List (Nat × WEntry)}
    (hwc : WCok wc) {e : WEntry} {wc1 : List (Nat × WEntry)}
    (h : assign_rank_state n rank m wc = Except.ok (e, wc1)) (r : Nat) :
    WCok (if e.wait_accept > 0 then wcUpd wc1 r e else wc1) := by
  obtain ⟨hport, hwc1⟩ := (assign_rank_state_safe hwc).1 e wc1 h
  by_cases hwa : e.wait_accept > 0
  · rw [if_pos hwa]
    refine wcUpd_WCok hwc1 ?_
    rw [hport]
    rfl
  · rw [if_neg hwa]
    exact hwc1

/-- Port safety of the batch-assignment loop. -/
theorem flush_fold_safe :
    ∀ (l : List Msg) (st : TState), WCok st.wait_conn →
      (∀ st1, flush_fold l st = Except.ok st1 → WCok st1.wait_conn) ∧
      flush_fold l st ≠ Except.error errPortNone := by
  intro l
  induction l with
  | nil =>
    intro st hwc
    refine ⟨?_, ?_⟩
    · intro st1 h
      injection h with h
      subst h
      exact hwc
    · intro h
      exact Except.noConfusion h
  | cons s rest ih =>
    intro st hwc
    cases htodo : st.todo_nodes with
    | nil =>
      simp only [flush_fold, htodo]
      refine ⟨?_, ?_⟩
      · intro st1 h
        exact Except.noConfusion h
      · intro h
        injection h with h
        exact errTodoPop_ne h
    | cons rank todo1 =>
      simp only [flush_fold, htodo]
      cases har : assign_rank_state st.n_workers rank s st.wait_conn with
      | error e =>
        have hne0 := (@assign_rank_state_safe st.n_workers rank s st.wait_conn hwc).2
        rw [har] at hne0
        have hne : e ≠ errPortNone := fun hh => hne0 (by rw [hh])
        simp only [har]
        refine ⟨?_, ?_⟩
        · intro st1 h
          exact Except.noConfusion h
        · intro h
          injection h with h
          exact hne h
      | ok p =>
        obtain ⟨e, wc1⟩ := p
        have hwc' := assign_insert_WCok hwc har rank
        simp only [har]
        exact ih _ hwc'

/-- Port safety of one `start`/`recover` session body. -/
theorem handle_session_safe (st1 : TState) (m : Msg) (hwc : WCok st1.wait_conn) :
    (∀ st2, handle_session st1 m = Except.ok st2 → WCok st2.wait_conn) ∧
    handle_session st1 m ≠ Except.error errPortNone := by
  unfold handle_session
  by_cases hrec : m.cmd = Cmd.recover ∧ m.rank < 0
  · rw [if_pos hrec]
    exact ⟨fun st2 h => Except.noConfusion h, fun h => errRecoverRank_ne (by injection h)⟩
  · rw [if_neg hrec]
    by_cases hdec : decide_rank m.rank m.jobid st1.job_map = -1
    · rw [if_pos hdec]
      by_cases htodo : st1.todo_nodes = []
      · rw [if_pos htodo]
        exact ⟨fun st2 h => Except.noConfusion h, fun h => errTodoEmpty_ne (by injection h)⟩
      · rw [if_neg htodo]
        by_cases hlen : (st1.pending ++ [m]).length = st1.todo_nodes.length
        · rw [if_pos hlen]
          exact flush_fold_safe _ _ hwc
        · rw [if_neg hlen]
          refine ⟨?_, fun h => Except.noConfusion h⟩
          intro st2 h
          injection h with h
          subst h
          exact hwc
    · rw [if_neg hdec]
      by_cases hkey : 0 ≤ decide_rank m.rank m.jobid st1.job_map ∧
          (decide_rank m.rank m.jobid st1.job_map).toNat < st1.n_workers
      · rw [if_pos hkey]
        cases har : assign_rank_state st1.n_workers
            (decide_rank m.rank m.jobid st1.job_map).toNat m st1.wait_conn with
        | error e =>
          have hne0 := (@assign_rank_state_safe st1.n_workers
            (decide_rank m.rank m.jobid st1.job_map).toNat m st1.wait_conn hwc).2
          rw [har] at hne0
          have hne : e ≠ errPortNone := fun hh => hne0 (by rw [hh])
          refine ⟨fun st2 h => Except.noConfusion h, ?_⟩
          intro h
          injection h with h
          exact hne h
        | ok p =>
          obtain ⟨e, wc1⟩ := p
          refine ⟨?_, fun h => Except.noConfusion h⟩
          intro st2 h
          injection h with h
          subst h
          exact assign_insert_WCok hwc har _
      · rw [if_neg hkey]
        exact ⟨fun st2 h => Except.noConfusion h, fun h => errRankKey_ne (by injection h)⟩

/-- The three outcomes of the lazy-initialisation block; a successful
outcome only changes `n_workers`, `todo_nodes` and `inited`. -/
theorem lazy_init_cases (st : TState) (m : Msg) :
    (∃ st1, lazy_init st m = Except.ok st1 ∧ st1.wait_conn = st.wait_conn ∧
      st1.job_map = st.job_map ∧ st1.pending = st.pending ∧
      st1.shutdown = st.shutdown ∧ st1.log = st.log) ∨
    lazy_init st m = Except.error errFirstStart ∨
    lazy_init st m = Except.error errWorldSize := by
  unfold lazy_init
  by_cases h1 : st.inited = false
  · rw [if_pos h1]
    by_cases h2 : m.cmd = Cmd.start
    · rw [if_pos h2]
      exact Or.inl ⟨_, rfl, rfl, rfl, rfl, rfl, rfl⟩
    · rw [if_neg h2]
      exact Or.inr (Or.inl rfl)
  · rw [if_neg h1]
    by_cases h3 : m.world_size = -1 ∨ m.world_size = (st.n_workers : Int)
    · rw [if_pos h3]
      exact Or.inl ⟨st, rfl, rfl, rfl, rfl, rfl, rfl⟩
    · rw [if_neg h3]
      exact Or.inr (Or.inr rfl)

/-- Port safety of one accept-loop iteration. -/
theorem step_safe (st : TState) (m : Msg) (hwc : WCok st.wait_conn) :
    (∀ st1, step st m = Except.ok st1 → WCok st1.wait_conn) ∧
    step st m ≠ Except.error errPortNone := by
  unfold step
  cases hcmd : m.cmd with
  | printCmd =>
    refine ⟨?_, fun h => Except.noConfusion h⟩
    intro st1 h
    injection h with h
    subst h
    exact hwc
  | shutdownCmd =>
    by_cases hc : 0 ≤ m.rank ∧ m.rank.toNat ∉ st.shutdown
        ∧ (st.wait_conn.lookup m.rank.toNat) = none
    · rw [if_pos hc]
      refine ⟨?_, fun h => Except.noConfusion h⟩
      intro st1 h
      injection h with h
      subst h
      exact hwc
    · rw [if_neg hc]
      exact ⟨fun st1 h => Except.noConfusion h, fun h => errShutdown_ne (by injection h)⟩
  | start =>
    rcases lazy_init_cases st m with ⟨st1, hini, hwcE, -, -, -, -⟩ | hini | hini
    · rw [hini]
      have hwc1 : WCok st1.wait_conn := by rw [hwcE]; exact hwc
      exact handle_session_safe st1 m hwc1
    · rw [hini]
      exact ⟨fun st1 h => Except.noConfusion h, fun h => errFirstStart_ne (by injection h)⟩
    · rw [hini]
      exact ⟨fun st1 h => Except.noConfusion h, fun h => errWorldSize_ne (by injection h)⟩
  | recover =>
    rcases lazy_init_cases st m with ⟨st1, hini, hwcE, -, -, -, -⟩ | hini | hini
    · rw [hini]
      have hwc1 : WCok st1.wait_conn := by rw [hwcE]; exact hwc
      exact handle_session_safe st1 m hwc1
    · rw [hini]
      exact ⟨fun st1 h => Except.noConfusion h, fun h => errFirstStart_ne (by injection h)⟩
    · rw [hini]
      exact ⟨fun st1 h => Except.noConfusion h, fun h => errWorldSize_ne (by injection h)⟩

/-- Reachable coordinator states keep `WCok`. -/
theorem steps_WCok :
    ∀ (msgs : List Msg) (st st1 : TState), WCok st.wait_conn →
      steps st msgs = Except.ok st1 → WCok st1.wait_conn := by
  intro msgs
  induction msgs with
  | nil =>
    intro st st1 hwc h
    injection h with h
    subst h
    exact hwc
  | cons m rest ih =>
    intro st st1 hwc h
    simp only [steps] at h
    cases hstep : step st m with
    | ok st2 =>
      rw [hstep] at h
      exact ih st2 st1 ((step_safe st m hwc).1 st2 hstep) h
    | error e =>
      rw [hstep] at h
      exact Except.noConfusion h

/-! ## Concrete sessions used in witnesses and counterexamples -/

/-- A `start` session deferring to batch assignment: declared rank −1,
world size −1, no job id. -/
def batch_start (h : String) : Msg :=
  { host := h, rank := -1, world_size := -1, jobid := nullJobid,
    cmd := Cmd.start, good := [], port := 9100 }

/-- A `start` session with an explicitly declared rank and world size. -/
def start_rank (r ws : Int) : Msg :=
  { host := "w", rank := r, world_size := ws, jobid := nullJobid,
    cmd := Cmd.start, good := [], port := 9101 }

/-- A `recover` session for a given rank. -/
def recover_rank (r : Int) : Msg :=
  { host := "w", rank := r, world_size := -1, jobid := nullJobid,
    cmd := Cmd.recover, good := [], port := 9102 }

/-- A `shutdown` notification from a given rank. -/
def shutdown_from (r : Int) : Msg :=
  { host := "w", rank := r, world_size := -1, jobid := nullJobid,
    cmd := Cmd.shutdownCmd, good := [], port := 0 }

/-- C7: in every reachable coordinator state, every rank present in
`wait_conn` has a recorded listening port, so the `assert port is not
None` executed when `assign_rank` advertises a peer from `wait_conn`
can never fire on the next session. -/
theorem wait_conn_ports_recorded (n : Nat) (msgs : List Msg) (st1 : TState)
    (h : steps (init_state n) msgs = Except.ok st1) :
    (∀ p ∈ st1.wait_conn, p.2.port.isSome) ∧
    ∀ m : Msg, step st1 m ≠ Except.error errPortNone := by
  have hwc : WCok st1.wait_conn :=
    steps_WCok msgs (init_state n) st1 (fun p hp => absurd hp (List.not_mem_nil p)) h
  exact ⟨hwc, fun m => (step_safe st1 m hwc).2⟩

/-- The coordinator state reached from `init_state 2` by one explicit
`start` session for rank 0 (used to instantiate reachable-state
theorems). -/
def c7_state : TState :=
  { n_workers := 2, shutdown := [],
    wait_conn := [(0, { host := "w", rank := 0, wait_accept := 1, port := some 9101 })],
    job_map := [], pending := [], todo_nodes := [0, 1], inited := true,
    log := [("w", 0)] }

/-- Witness for C7: a reachable state with a live `wait_conn` entry, on
which no next session can trip the port assertion. -/
theorem wait_conn_ports_recorded_witness :
    step c7_state (recover_rank 1) ≠ Except.error errPortNone :=
  (wait_conn_ports_recorded 2 [start_rank 0 2] c7_state (by rfl)).2 (recover_rank 1)

/-! ## C6: loop termination and what is left behind -/

/-- C6 (amended): whenever `accept_workers` returns, it is because the
shutdown set has reached size `n_workers`. -/
theorem accept_loop_terminates (st : TState) (msgs : List Msg) (st1 : TState)
    (h : runMsgs st msgs = Except.ok st1) :
    st1.shutdown.length = st1.n_workers := by
  induction msgs generalizing st with
  | nil =>
    simp only [runMsgs] at h
    split_ifs at h with hc
    injection h with h
    subst h
    exact hc
  | cons m rest ih =>
    simp only [runMsgs] at h
    split_ifs at h with hc
    · injection h with h
      subst h
      exact hc
    · cases hstep : step st m with
      | ok st2 =>
        rw [hstep] at h
        exact ih st2 h
      | error e =>
        rw [hstep] at h
        exact Except.noConfusion h

/-- Witness for the amended C6 at `N = 1`. -/
theorem accept_loop_terminates_witness :
    ({ init_state 1 with shutdown := [0] } : TState).shutdown.length
      = ({ init_state 1 with shutdown := [0] } : TState).n_workers :=
  accept_loop_terminates (init_state 1) [shutdown_from 0] _ (by rfl)

/-- Counterexample to C6 as stated: a run in which rank 0 shuts down,
then starts explicitly (entering `wait_conn`), one worker is left
pending, and ranks 1 and 2 shut down.  The loop terminates (the
shutdown set reaches `N = 3`), yet `wait_conn` still holds rank 0 and
`pending` still holds one entry — the source never clears `pending`,
and a rank may re-enter `wait_conn` after its shutdown was recorded. -/
theorem accept_loop_leftovers :
    (runMsgs (init_state 3)
        [shutdown_from 0, start_rank 0 3, batch_start "hx", shutdown_from 1,
          shutdown_from 2]).toOption.map
      (fun st => (st.shutdown.length, st.n_workers, st.wait_conn.map Prod.fst,
        st.pending.length))
      = some (3, 3, [0], 1) := by
  rfl

/-! ## C9: world-size handling -/

theorem flush_fold_preserves :
    ∀ (l : List Msg) (st st1 : TState), flush_fold l st = Except.ok st1 →
      st1.n_workers = st.n_workers ∧ st1.inited = st.inited := by
  intro l
  induction l with
  | nil =>
    intro st st1 h
    injection h with h
    subst h
    exact ⟨rfl, rfl⟩
  | cons s rest ih =>
    intro st st1 h
    cases htodo : st.todo_nodes with
    | nil =>
      simp only [flush_fold, htodo] at h
      exact Except.noConfusion h
    | cons rank todo1 =>
      simp only [flush_fold, htodo] at h
      cases har : assign_rank_state st.n_workers rank s st.wait_conn with
      | error e =>
        rw [har] at h
        exact Except.noConfusion h
      | ok p =>
        obtain ⟨e, wc1⟩ := p
        rw [har] at h
        exact ih
          { st with
            todo_nodes := todo1,
            job_map := if s.jobid ≠ nullJobid then jmUpd st.job_map s.jobid (rank : Int)
              else st.job_map,
            wait_conn := if e.wait_accept > 0 then wcUpd wc1 rank e else wc1,
            log := st.log ++ [(s.host, rank)] } st1 h

theorem handle_session_preserves (st1 : TState) (m : Msg) (st2 : TState)
    (h : handle_session st1 m = Except.ok st2) :
    st2.n_workers = st1.n_workers ∧ st2.inited = st1.inited := by
  unfold handle_session at h
  by_cases hrec : m.cmd = Cmd.recover ∧ m.rank < 0
  · rw [if_pos hrec] at h
    exact Except.noConfusion h
  · rw [if_neg hrec] at h
    by_cases hdec : decide_rank m.rank m.jobid st1.job_map = -1
    · rw [if_pos hdec] at h
      by_cases htodo : st1.todo_nodes = []
      · rw [if_pos htodo] at h
        exact Except.noConfusion h
      · rw [if_neg htodo] at h
        by_cases hlen : (st1.pending ++ [m]).length = st1.todo_nodes.length
        · rw [if_pos hlen] at h
          exact flush_fold_preserves
            (List.insertionSort (fun a b => a.host ≤ b.host) (st1.pending ++ [m]))
            { st1 with pending :=
                List.insertionSort (fun a b => a.host ≤ b.host) (st1.pending ++ [m]) }
            st2 h
        · rw [if_neg hlen] at h
          injection h with h
          subst h
          exact ⟨rfl, rfl⟩
    · rw [if_neg hdec] at h
      by_cases hkey : 0 ≤ decide_rank m.rank m.jobid st1.job_map ∧
          (decide_rank m.rank m.jobid st1.job_map).toNat < st1.n_workers
      · rw [if_pos hkey] at h
        cases har : assign_rank_state st1.n_workers
            (decide_rank m.rank m.jobid st1.job_map).toNat m st1.wait_conn with
        | error e =>
          rw [har] at h
          exact Except.noConfusion h
        | ok p =>
          obtain ⟨e, wc1⟩ := p
          rw [har] at h
          injection h with h
          subst h
          exact ⟨rfl, rfl⟩
      · rw [if_neg hkey] at h
        exact Except.noConfusion h

/-- The lazy-initialisation block on the first `start` with a positive
declared world size replaces the working `n_workers` with it. -/
theorem lazy_init_replaces (st : TState) (m : Msg) (h1 : st.inited = false)
    (h2 : m.cmd = Cmd.start) (h3 : 0 < m.world_size) :
    lazy_init st m = Except.ok
      { st with
        n_workers := m.world_size.toNat,
        todo_nodes := List.range m.world_size.toNat,
        inited := true } := by
  unfold lazy_init
  rw [if_pos h1, if_pos h2, if_pos h3]

/-- For a `start`/`recover` session, `step` is the lazy-init block
followed by the session body. -/
theorem step_start_recover (st : TState) (m : Msg)
    (hcmd : m.cmd = Cmd.start ∨ m.cmd = Cmd.recover) :
    step st m = match lazy_init st m with
      | Except.error e => Except.error e
      | Except.ok st1 => handle_session st1 m := by
  unfold step
  rcases hcmd with hc | hc <;> rw [hc]

/-- C9: if the first `start` declares `world_size > 0`, the coordinator
replaces its working N with that value before building the overlay, and
every subsequent `start`/`recover` session must declare `world_size`
equal to −1 or to the working N — any other value fails the assertion
and the session is fatal. -/
theorem world_size_protocol :
    (∀ (st : TState) (m : Msg) (st1 : TState),
      st.inited = false → m.cmd = Cmd.start → 0 < m.world_size →
      step st m = Except.ok st1 →
      st1.n_workers = m.world_size.toNat ∧ st1.inited = true) ∧
    (∀ (st : TState) (m : Msg),
      st.inited = true → (m.cmd = Cmd.start ∨ m.cmd = Cmd.recover) →
      m.world_size ≠ -1 → m.world_size ≠ (st.n_workers : Int) →
      step st m = Except.error errWorldSize) := by
  constructor
  · intro st m st1 h1 h2 h3 h
    rw [step_start_recover st m (Or.inl h2), lazy_init_replaces st m h1 h2 h3] at h
    replace h : handle_session
        { st with
          n_workers := m.world_size.toNat,
          todo_nodes := List.range m.world_size.toNat,
          inited := true } m = Except.ok st1 := h
    exact handle_session_preserves _ m st1 h
  · intro st m h1 hcmd h2 h3
    have hws : lazy_init st m = Except.error errWorldSize := by
      unfold lazy_init
      rw [if_neg (by simp [h1]), if_neg (by simp [h2, h3])]
    unfold step
    rcases hcmd with hc | hc <;> rw [hc, hws]

/-- The coordinator state reached from `init_state 2` by one first
`start` session declaring rank 0 and world size 5. -/
def c9_state : TState :=
  { n_workers := 5, shutdown := [],
    wait_conn := [(0, { host := "w", rank := 0, wait_accept := 2, port := some 9101 })],
    job_map := [], pending := [], todo_nodes := [0, 1, 2, 3, 4], inited := true,
    log := [("w", 0)] }

/-- Witness for C9: the first start with `world_size = 5` sets `N = 5`;
a later session declaring `world_size = 7` against `N = 2` is fatal. -/
theorem world_size_protocol_witness :
    (c9_state.n_workers = (5 : Int).toNat ∧ c9_state.inited = true) ∧
    step c7_state (start_rank (-1) 7) = Except.error errWorldSize :=
  ⟨world_size_protocol.1 (init_state 2) (start_rank 0 5) _ (by rfl) (by rfl)
      (by decide) (by rfl),
    world_size_protocol.2 c7_state (start_rank (-1) 7) (by rfl) (Or.inl rfl)
      (by decide) (by decide)⟩

/-! ## C10: job_map is only written on the batch path -/

/-- A jobid that was never recorded defers a rank −1 session to batch
assignment. -/
theorem decide_rank_defer (jm : List (String × Int)) (j : String)
    (h : jm.lookup j = none) : decide_rank (-1) j jm = -1 := by
  unfold decide_rank
  have hcond : ¬(j ≠ nullJobid ∧ (jm.lookup j).isSome = true) := by
    intro hc
    rw [h] at hc
    exact absurd hc.2 (by simp)
  rw [if_neg (by decide), if_neg hcond]

/-- C10: a `start`/`recover` session that obtains its rank because it
declared `rank ≥ 0` never adds or updates a `job_map` entry (whatever
its jobid), so a later session with that jobid and rank −1 cannot obtain
the earlier rank from `job_map` — it still defers to batch
assignment. -/
theorem explicit_rank_job_map_frame (st : TState) (m : Msg) (st1 : TState)
    (hcmd : m.cmd = Cmd.start ∨ m.cmd = Cmd.recover) (hr : 0 ≤ m.rank)
    (h : step st m = Except.ok st1) :
    st1.job_map = st.job_map ∧
    ∀ j : String, st.job_map.lookup j = none →
      decide_rank (-1) j st1.job_map = -1 := by
  have hjm : st1.job_map = st.job_map := by
    rw [step_start_recover st m hcmd] at h
    rcases lazy_init_cases st m with ⟨st2, hini, -, hjm2, -, -, -⟩ | hini | hini
    · rw [hini] at h
      replace h : handle_session st2 m = Except.ok st1 := h
      have hdr : decide_rank m.rank m.jobid st2.job_map = m.rank := by
        unfold decide_rank
        rw [if_pos hr]
      unfold handle_session at h
      rw [hdr] at h
      rw [if_neg (fun hh => absurd hh.2 (by omega))] at h
      rw [if_neg (show ¬(m.rank = -1) by omega)] at h
      by_cases hkey : 0 ≤ m.rank ∧ m.rank.toNat < st2.n_workers
      · rw [if_pos hkey] at h
        cases har : assign_rank_state st2.n_workers m.rank.toNat m st2.wait_conn with
        | error e =>
          rw [har] at h
          exact absurd h (by simp)
        | ok p =>
          obtain ⟨e, wc1⟩ := p
          rw [har] at h
          injection h with h
          subst h
          exact hjm2
      · rw [if_neg hkey] at h
        exact absurd h (by simp)
    · rw [hini] at h
      exact absurd h (by simp)
    · rw [hini] at h
      exact absurd h (by simp)
  refine ⟨hjm, ?_⟩
  intro j hj
  rw [hjm]
  exact decide_rank_defer st.job_map j hj

/-- The state after a `recover` for rank 1 against `c7_state`. -/
def c10_state : TState :=
  { n_workers := 2, shutdown := [], wait_conn := [], job_map := [], pending := [],
    todo_nodes := [0, 1], inited := true, log := [("w", 0), ("w", 1)] }

/-- Witness for C10: a `recover` session for rank 1 against a reachable
two-worker state leaves the (empty) `job_map` untouched. -/
theorem explicit_rank_job_map_frame_witness :
    c10_state.job_map = c7_state.job_map ∧
    ∀ j : String, c7_state.job_map.lookup j = none →
      decide_rank (-1) j c10_state.job_map = -1 :=
  explicit_rank_job_map_frame c7_state (recover_rank 1) c10_state (Or.inr rfl)
    (by decide) (by rfl)

/-! ## C3: batch rank assignment sorts by host -/

/-- The coordinator state after the overlay has been built and `i`
deferring workers have been queued: nothing assigned yet, all of
`todo_nodes` outstanding. -/
def batch_mid (n : Nat) (ps : List Msg) : TState :=
  { n_workers := n, shutdown := [], wait_conn := [], job_map := [], pending := ps,
    todo_nodes := List.range n, inited := true, log := [] }

theorem step_init_batch (n : Nat) (h : String) :
    step (init_state n) (batch_start h)
      = handle_session (batch_mid n []) (batch_start h) := by
  rw [step_start_recover _ _ (Or.inl rfl)]
  have hini : lazy_init (init_state n) (batch_start h)
      = Except.ok (batch_mid n []) := by rfl
  rw [hini]

theorem step_mid_batch (n : Nat) (ps : List Msg) (h : String) :
    step (batch_mid n ps) (batch_start h)
      = handle_session (batch_mid n ps) (batch_start h) := by
  rw [step_start_recover _ _ (Or.inl rfl)]
  have hini : lazy_init (batch_mid n ps) (batch_start h)
      = Except.ok (batch_mid n ps) := by rfl
  rw [hini]

theorem handle_batch_append (n : Nat) (ps : List Msg) (h : String) (hn : 1 ≤ n)
    (hlen : (ps ++ [batch_start h]).length ≠ n) :
    handle_session (batch_mid n ps) (batch_start h)
      = Except.ok (batch_mid n (ps ++ [batch_start h])) := by
  unfold handle_session
  have hc1 : ¬((batch_start h).cmd = Cmd.recover ∧ (batch_start h).rank < 0) := by
    simp [batch_start]
  have hc2 : decide_rank (batch_start h).rank (batch_start h).jobid
      (batch_mid n ps).job_map = -1 := by rfl
  have hc3 : ¬((batch_mid n ps).todo_nodes = []) := by
    simp [batch_mid, List.range_eq_nil]
    omega
  have hc4 : ¬(((batch_mid n ps).pending ++ [batch_start h]).length
      = (batch_mid n ps).todo_nodes.length) := by
    simpa [batch_mid] using hlen
  rw [if_neg hc1, hc2, if_pos rfl, if_neg hc3, if_neg hc4]
  rfl

theorem handle_batch_flush (n : Nat) (ps : List Msg) (h : String) (hn : 1 ≤ n)
    (hlen : (ps ++ [batch_start h]).length = n) :
    handle_session (batch_mid n ps) (batch_start h)
      = flush_fold
          (List.insertionSort (fun a b => a.host ≤ b.host) (ps ++ [batch_start h]))
          (batch_mid n (List.insertionSort (fun a b => a.host ≤ b.host)
            (ps ++ [batch_start h]))) := by
  unfold handle_session
  have hc1 : ¬((batch_start h).cmd = Cmd.recover ∧ (batch_start h).rank < 0) := by
    simp [batch_start]
  have hc2 : decide_rank (batch_start h).rank (batch_start h).jobid
      (batch_mid n ps).job_map = -1 := by rfl
  have hc3 : ¬((batch_mid n ps).todo_nodes = []) := by
    simp [batch_mid, List.range_eq_nil]
    omega
  have hc4 : ((batch_mid n ps).pending ++ [batch_start h]).length
      = (batch_mid n ps).todo_nodes.length := by
    simpa [batch_mid] using hlen
  rw [if_neg hc1, hc2, if_pos rfl, if_neg hc3, if_pos hc4]
  rfl

/-- The accept loop over the deferring sessions: queue every worker,
then sort the full pending list by host and run the batch flush. -/
theorem steps_batch (n : Nat) :
    ∀ (hs1 : List String) (ps : List Msg),
      ps.length + hs1.length = n → 0 < hs1.length →
      steps (batch_mid n ps) (hs1.map batch_start) =
        flush_fold
          (List.insertionSort (fun a b => a.host ≤ b.host)
            (ps ++ hs1.map batch_start))
          (batch_mid n (List.insertionSort (fun a b => a.host ≤ b.host)
            (ps ++ hs1.map batch_start))) := by
  intro hs1
  induction hs1 with
  | nil =>
    intro ps h1 h2
    simp at h2
  | cons h t ih =>
    intro ps h1 h2
    rw [List.map_cons]
    simp only [steps]
    rw [step_mid_batch]
    cases t with
    | nil =>
      have hlen : (ps ++ [batch_start h]).length = n := by
        simp at h1 ⊢
        omega
      rw [handle_batch_flush n ps h (by omega) hlen]
      have hmatch : ∀ r : Except String TState,
          (match r with
            | Except.ok st1 => steps st1 (List.map batch_start [])
            | Except.error e => Except.error e) = r := by
        intro r
        cases r <;> rfl
      rw [hmatch]
      rfl
    | cons h2' t' =>
      have hlen : (ps ++ [batch_start h]).length ≠ n := by
        simp at h1 ⊢
        omega
      rw [handle_batch_append n ps h (by omega) hlen]
      show steps (batch_mid n (ps ++ [batch_start h]))
        ((h2' :: t').map batch_start) = _
      rw [ih (ps ++ [batch_start h]) (by simp at h1 ⊢; omega) (by simp)]
      simp only [List.append_assoc, List.singleton_append, List.map_cons]

/-- With an empty `good` set reported, `assign_rank` always succeeds
(empty sets are subsets, and `WCok` covers the advertised ports). -/
theorem assign_ok_of_empty_good {n rank : Nat} {m : Msg}
    {wc : List (Nat × WEntry)} (hg : m.good = []) (hwc : WCok wc) :
    ∃ p, assign_rank_state n rank m wc = Except.ok p := by
  unfold assign_rank_state
  have hc : m.good.all (fun r => (session_nnset n rank).contains r) = true := by
    rw [hg]
    rfl
  rw [if_pos hc, if_pos (ports_check hwc _)]
  exact ⟨_, rfl⟩

/-- Running the batch flush over sessions that defer with empty `good`
sets: it succeeds and logs, in order, the pending hosts paired with the
front of `todo_nodes`. -/
theorem flush_fold_batch :
    ∀ (msgs : List Msg) (st : TState),
      (∀ s ∈ msgs, s.good = [] ∧ s.jobid = nullJobid) →
      msgs.length ≤ st.todo_nodes.length →
      WCok st.wait_conn →
      ∃ st1, flush_fold msgs st = Except.ok st1 ∧
        st1.log = st.log ++ (msgs.map Msg.host).zip st.todo_nodes := by
  intro msgs
  induction msgs with
  | nil =>
    intro st hgood hlen hwc
    exact ⟨st, rfl, by simp⟩
  | cons s rest ih =>
    intro st hgood hlen hwc
    cases htodo : st.todo_nodes with
    | nil =>
      rw [htodo] at hlen
      simp at hlen
    | cons rank todo1 =>
      have hgs := hgood s (List.mem_cons_self s rest)
      obtain ⟨⟨e, wc1⟩, har⟩ :=
        @assign_ok_of_empty_good st.n_workers rank s st.wait_conn hgs.1 hwc
      simp only [flush_fold, htodo]
      rw [har]
      have hwc' := assign_insert_WCok hwc har rank
      obtain ⟨st1, hrun, hlog⟩ := ih
        { st with
          todo_nodes := todo1,
          job_map := if s.jobid ≠ nullJobid then jmUpd st.job_map s.jobid (rank : Int)
            else st.job_map,
          wait_conn := if e.wait_accept > 0 then wcUpd wc1 rank e else wc1,
          log := st.log ++ [(s.host, rank)] }
        (fun s' hs' => hgood s' (List.mem_cons_of_mem s hs'))
        (by rw [htodo] at hlen; simpa using hlen)
        hwc'
      refine ⟨st1, hrun, ?_⟩
      rw [hlog]
      simp [List.append_assoc]

instance : IsTotal Msg (fun a b => a.host ≤ b.host) :=
  ⟨fun a b => le_total a.host b.host⟩

instance : IsTrans Msg (fun a b => a.host ≤ b.host) :=
  ⟨fun _ _ _ hab hbc => le_trans hab hbc⟩

/-- Sorting the pending entries by host and reading the hosts back off
is sorting the hosts. -/
theorem sorted_hosts_batch (hs : List String) :
    (List.insertionSort (fun a b => a.host ≤ b.host) (hs.map batch_start)).map
      Msg.host = List.insertionSort (· ≤ ·) hs := by
  have hid : (hs.map batch_start).map Msg.host = hs := by
    rw [List.map_map]
    exact List.map_id hs
  have hp2 : ((hs.map batch_start).map Msg.host).Perm
      (List.insertionSort (· ≤ ·) hs) := by
    rw [hid]
    exact (List.perm_insertionSort (· ≤ ·) hs).symm
  have hp : ((List.insertionSort (fun a b => a.host ≤ b.host)
      (hs.map batch_start)).map Msg.host).Perm (List.insertionSort (· ≤ ·) hs) :=
    ((List.perm_insertionSort _ _).map Msg.host).trans hp2
  have hs1 : List.Sorted (· ≤ ·) ((List.insertionSort (fun a b => a.host ≤ b.host)
      (hs.map batch_start)).map Msg.host) := by
    rw [List.Sorted, List.pairwise_map]
    exact List.sorted_insertionSort _ _
  exact List.eq_of_perm_of_sorted hp hs1 (List.sorted_insertionSort _ _)

/-- The full batch run from the initial state, for any host list. -/
theorem steps_batch_run (n : Nat) (hs : List String) (hn : 1 ≤ n)
    (hlen : hs.length = n) :
    ∃ st, steps (init_state n) (hs.map batch_start) = Except.ok st ∧
      st.log = (List.insertionSort (· ≤ ·) hs).zip (List.range n) := by
  cases hs with
  | nil =>
    simp at hlen
    omega
  | cons h t =>
    have hfirst : steps (init_state n) ((h :: t).map batch_start)
        = steps (batch_mid n []) ((h :: t).map batch_start) := by
      simp only [List.map_cons, steps]
      rw [step_init_batch, step_mid_batch]
    rw [hfirst, steps_batch n (h :: t) [] (by simpa using hlen) (by simp)]
    simp only [List.nil_append]
    obtain ⟨st1, hrun, hlog⟩ := flush_fold_batch
      (List.insertionSort (fun a b => a.host ≤ b.host) ((h :: t).map batch_start))
      (batch_mid n (List.insertionSort (fun a b => a.host ≤ b.host)
        ((h :: t).map batch_start)))
      (by
        intro s hsm
        rw [List.mem_insertionSort] at hsm
        obtain ⟨h', -, rfl⟩ := List.mem_map.mp hsm
        exact ⟨rfl, rfl⟩)
      (by
        show (List.insertionSort _ _).length ≤ (List.range n).length
        rw [List.length_insertionSort, List.length_range, List.length_map]
        omega)
      (fun p hp => absurd hp (List.not_mem_nil p))
    refine ⟨st1, hrun, ?_⟩
    rw [hlog]
    show List.nil ++ _ = _
    rw [List.nil_append, sorted_hosts_batch]
    rfl

/-- C3: when all `N` workers defer (`start`, rank −1, jobid NULL), the
coordinator sorts the pending entries by host and assigns rank `i` to
the `i`-th entry of the sorted list; the assigned ranks are exactly
`[0, N)`, and the multiset of host→rank pairs is a deterministic
function of the multiset of host strings (any arrival permutation
produces the same log). -/
theorem batch_rank_assignment (n : Nat) (hs hs2 : List String) (hn : 1 ≤ n)
    (hlen : hs.length = n) (hperm : hs.Perm hs2) :
    ∃ st st2,
      steps (init_state n) (hs.map batch_start) = Except.ok st ∧
      steps (init_state n) (hs2.map batch_start) = Except.ok st2 ∧
      st.log = (List.insertionSort (· ≤ ·) hs).zip (List.range n) ∧
      st.log.map Prod.snd = List.range n ∧
      st2.log = st.log := by
  obtain ⟨st, hrun, hlog⟩ := steps_batch_run n hs hn hlen
  obtain ⟨st2, hrun2, hlog2⟩ := steps_batch_run n hs2 hn (hperm.length_eq ▸ hlen)
  have hsorted : List.insertionSort (· ≤ ·) hs = List.insertionSort (· ≤ ·) hs2 :=
    List.eq_of_perm_of_sorted
      ((List.perm_insertionSort _ _).trans
        (hperm.trans (List.perm_insertionSort _ _).symm))
      (List.sorted_insertionSort _ _) (List.sorted_insertionSort _ _)
  refine ⟨st, st2, hrun, hrun2, hlog, ?_, ?_⟩
  · rw [hlog]
    apply List.map_snd_zip
    rw [List.length_insertionSort, hlen, List.length_range]
  · rw [hlog2, hlog, hsorted]

/-- Witness for C3 at `N = 2` with hosts `["b", "a"]` and the reversed
arrival order. -/
theorem batch_rank_assignment_witness :
    ∃ st st2,
      steps (init_state 2) (["b", "a"].map batch_start) = Except.ok st ∧
      steps (init_state 2) (["a", "b"].map batch_start) = Except.ok st2 ∧
      st.log = (List.insertionSort (· ≤ ·) ["b", "a"]).zip (List.range 2) ∧
      st.log.map Prod.snd = List.range 2 ∧
      st2.log = st.log :=
  batch_rank_assignment 2 ["b", "a"] ["a", "b"] (by decide) (by decide) (by decide)

end Tracker
